import Mathlib

/-!
Verification development for the deployment workflow state machine of
`eg-mist-orchestration-core` (`src/services/redis_store.py`) and the
network addressing calculator (`src/services/network_calculator.py`).

The Python data-model module `src.models.orchestrator` (the classes
`StepStatus`, `DeploymentStatus`, `StepState`, `DeploymentState`) and the
Redis client wrapper `src.redis` are imported by the source but are not part
of the repository snapshot; they are modelled from the spec (sections 3 and
6).  All workflow operations (`create_deployment`, `get_deployment`,
`start_step`, `complete_step`, `fail_step`, `is_step_completed`,
`list_deployments`) are translated directly from `redis_store.py`.

Modelling conventions:
- timestamps (`datetime.utcnow().isoformat()`) are abstracted as a `Nat`
  clock value passed to each mutating operation;
- the Redis value (the JSON serialization of a `DeploymentState`) is modelled
  as the `DeploymentState` itself, since the spec (section 6) requires the
  serialization to be a lossless round trip;
- a Python `dict` is modelled as an association list whose update operation
  replaces the entry for an existing key in place and appends a new key at
  the end, exactly the observable behaviour of `d[k] = v`;
- Python's `str.replace(old, new)`, which replaces every occurrence, is
  modelled by the recursive `replaceAll` below.
-/

/-- Modelled from the spec: `StepStatus` of the missing module
`src.models.orchestrator` — `PENDING | IN_PROGRESS | COMPLETED | FAILED`
(spec section 3, Step Entity). -/
inductive StepStatus where
  | pending
  | in_progress
  | completed
  | failed
deriving DecidableEq, Repr

/-- Modelled from the spec: `DeploymentStatus` of the missing module
`src.models.orchestrator` — `IN_PROGRESS | COMPLETED | FAILED`
(spec section 3, Deployment Aggregate). -/
inductive DeploymentStatus where
  | in_progress
  | completed
  | failed
deriving DecidableEq, Repr

/-- Opaque step result payload (`result: dict | None` in the source);
spec section 9 says to treat it as a schema-less key-to-value mapping. -/
abbrev ResultPayload := List (String × String)

/-- Modelled from the spec: `StepState` of the missing module
`src.models.orchestrator` (spec section 3, Step Entity).  Fields default the
way `StepState(step_num=..., name=...)` defaults them in the source's
absent-aggregate branches: status `PENDING`, all optional fields unset. -/
structure StepState where
  step_num : Nat
  name : String
  status : StepStatus := .pending
  started_at : Option Nat := none
  completed_at : Option Nat := none
  result : Option ResultPayload := none
  error : Option String := none
deriving DecidableEq, Repr

/-- Modelled from the spec: `DeploymentState` of the missing module
`src.models.orchestrator` (spec section 3, Deployment Aggregate).
`total_steps` defaults to the fixed workflow size 13 (spec section 3:
"constant, e.g. 13"; source docstring: "Step number (1-13)"). -/
structure DeploymentState where
  site_id : String
  org_id : String
  site_name : String
  status : DeploymentStatus
  steps : List (Nat × StepState) := []
  current_step : Option Nat := none
  total_steps : Nat := 13
  created_at : Nat := 0
  updated_at : Nat := 0
deriving DecidableEq, Repr

/-- Update of an association list, with Python-dict semantics: replace the
entry for an existing key in place, otherwise append at the end. -/
def setPair {α β : Type} [DecidableEq α] : List (α × β) → α → β → List (α × β)
  | [], n, v => [(n, v)]
  | (m, w) :: rest, n, v =>
    if m = n then (n, v) :: rest else (m, w) :: setPair rest n v

/-- Lookup in an association list (first entry with the given key). -/
def getPair {α β : Type} [DecidableEq α] : List (α × β) → α → Option β
  | [], _ => none
  | (m, w) :: rest, n => if m = n then some w else getPair rest n

/-- Lookup of a step by number (`state.steps[step_num]` / `step_num in state.steps`). -/
def getStep (steps : List (Nat × StepState)) (n : Nat) : Option StepState :=
  getPair steps n

/-- Count of steps whose status is `COMPLETED`
(`sum(1 for s in state.steps.values() if s.status == StepStatus.COMPLETED)`). -/
def completedCount (steps : List (Nat × StepState)) : Nat :=
  steps.countP (fun p => decide (p.2.status = StepStatus.completed))

/-- Modelled from the spec: the StateStore capability (spec section 6) backed
by the missing `src.redis` client — a keyed map from string keys to the
(losslessly serialized) deployment aggregate. -/
structure Store where
  entries : List (String × DeploymentState)
deriving DecidableEq, Repr

/-- StateStore `get`. -/
def Store.get (s : Store) (k : String) : Option DeploymentState :=
  getPair s.entries k

/-- StateStore `set`. -/
def Store.set (s : Store) (k : String) (v : DeploymentState) : Store :=
  ⟨setPair s.entries k v⟩

/-- StateStore `keys("deployment:*")`: all stored keys matching the glob,
i.e. having the given prefix. -/
def Store.keysWithPrefix (s : Store) (pat : String) : List String :=
  (s.entries.map Prod.fst).filter (fun k => pat.data.isPrefixOf k.data)

/-- Fuel-driven worker for `replaceAll`; whenever `fuel ≥ s.length` it
scans `s` left to right, replacing each non-overlapping occurrence of `pat`
by `rep` (a nonempty match consumes at least one character, so one unit of
fuel per step suffices). -/
def replaceAllFuel (pat rep : List Char) : Nat → List Char → List Char
  | _, [] => []
  | 0, s => s
  | fuel + 1, c :: rest =>
    if pat ≠ [] ∧ pat.isPrefixOf (c :: rest) then
      rep ++ replaceAllFuel pat rep fuel ((c :: rest).drop pat.length)
    else
      c :: replaceAllFuel pat rep fuel rest

/-- Python's `str.replace(old, new)` on character lists: replaces every
(leftmost, non-overlapping) occurrence of `pat` by `rep`. -/
def replaceAll (s pat rep : List Char) : List Char :=
  replaceAllFuel pat rep s.length s

/-- Python's `str.replace` lifted to `String`. -/
def strReplace (s pat rep : String) : String :=
  ⟨replaceAll s.data pat.data rep.data⟩

/-- `RedisStateStore._key`: `f"deployment:{site_id}"`. -/
def deployKey (site_id : String) : String :=
  "deployment:" ++ site_id

/-- `RedisStateStore.create_deployment`, translated from
`src/services/redis_store.py` lines 36-58.  The optional client is the
`self.client` field; `now` abstracts `datetime.utcnow().isoformat()`. -/
def create_deployment (client : Option Store) (site_id org_id site_name : String)
    (now : Nat) : DeploymentState × Option Store :=
  let state : DeploymentState :=
    { site_id := site_id, org_id := org_id, site_name := site_name,
      status := .in_progress, created_at := now, updated_at := now }
  match client with
  | none => (state, none)
  | some s => (state, some (s.set (deployKey site_id) state))

/-- `RedisStateStore.get_deployment`, translated from lines 60-76. -/
def get_deployment (client : Option Store) (site_id : String) :
    Option DeploymentState :=
  match client with
  | none => none
  | some s => s.get (deployKey site_id)

/-- `RedisStateStore.start_step`, translated from lines 78-109: overwrites
the step entry with a fresh `IN_PROGRESS` step, sets `current_step`, forces
the aggregate status back to `IN_PROGRESS`, bumps `updated_at`, persists. -/
def start_step (client : Option Store) (site_id : String) (step_num : Nat)
    (step_name : String) (now : Nat) : StepState × Option Store :=
  match client with
  | none => ({ step_num := step_num, name := step_name }, none)
  | some s =>
    match s.get (deployKey site_id) with
    | none => ({ step_num := step_num, name := step_name }, some s)
    | some state =>
      let step : StepState :=
        { step_num := step_num, name := step_name,
          status := .in_progress, started_at := some now }
      let state' : DeploymentState :=
        { state with steps := setPair state.steps step_num step,
                     current_step := some step_num,
                     status := .in_progress,
                     updated_at := now }
      (step, some (s.set (deployKey site_id) state'))

/-- `RedisStateStore.complete_step`, translated from lines 111-143: marks the
step `COMPLETED` with `completed_at` and `result`; if the aggregate is absent
or the step unknown, returns a synthetic `COMPLETED` step without persisting;
otherwise recounts completed steps and sets the aggregate `COMPLETED` when
the count reaches `total_steps`. -/
def complete_step (client : Option Store) (site_id : String) (step_num : Nat)
    (result : Option ResultPayload) (now : Nat) : StepState × Option Store :=
  match client with
  | none => ({ step_num := step_num, name := "unknown", status := .completed }, none)
  | some s =>
    match s.get (deployKey site_id) with
    | none => ({ step_num := step_num, name := "unknown", status := .completed }, some s)
    | some state =>
      match getStep state.steps step_num with
      | none =>
        ({ step_num := step_num, name := "unknown", status := .completed }, some s)
      | some step0 =>
        let step : StepState :=
          { step0 with status := .completed, completed_at := some now,
                       result := result }
        let steps' := setPair state.steps step_num step
        let status' :=
          if state.total_steps ≤ completedCount steps' then
            DeploymentStatus.completed
          else state.status
        let state' : DeploymentState :=
          { state with steps := steps', updated_at := now, status := status' }
        (step, some (s.set (deployKey site_id) state'))

/-- `RedisStateStore.fail_step`, translated from lines 145-173: marks the
step `FAILED` with `error` and `completed_at` (without clearing a previous
`result`); unconditionally sets the aggregate status `FAILED`; if the
aggregate is absent or the step unknown, returns a synthetic `FAILED` step
without persisting. -/
def fail_step (client : Option Store) (site_id : String) (step_num : Nat)
    (error : String) (now : Nat) : StepState × Option Store :=
  match client with
  | none =>
    ({ step_num := step_num, name := "unknown", status := .failed,
       error := some error }, none)
  | some s =>
    match s.get (deployKey site_id) with
    | none =>
      ({ step_num := step_num, name := "unknown", status := .failed,
         error := some error }, some s)
    | some state =>
      match getStep state.steps step_num with
      | none =>
        ({ step_num := step_num, name := "unknown", status := .failed,
           error := some error }, some s)
      | some step0 =>
        let step : StepState :=
          { step0 with status := .failed, error := some error,
                       completed_at := some now }
        let state' : DeploymentState :=
          { state with steps := setPair state.steps step_num step,
                       status := .failed,
                       updated_at := now }
        (step, some (s.set (deployKey site_id) state'))

/-- `RedisStateStore.is_step_completed`, translated from lines 175-192. -/
def is_step_completed (client : Option Store) (site_id : String)
    (step_num : Nat) : Bool :=
  match get_deployment client site_id with
  | none => false
  | some state =>
    match getStep state.steps step_num with
    | some st => decide (st.status = StepStatus.completed)
    | none => false

/-- `RedisStateStore.list_deployments`, translated from lines 194-206:
`[key.replace("deployment:", "") for key in client.keys("deployment:*")]`. -/
def list_deployments (client : Option Store) : List String :=
  match client with
  | none => []
  | some s =>
    (s.keysWithPrefix "deployment:").map (fun k => strReplace k "deployment:" "")

/-- `IPAllocation` result model of `src/services/network_calculator.py`
lines 12-20 (all subnet fields are plain strings there, unvalidated). -/
structure IPAllocation where
  zone_id : Nat
  site_id : Nat
  management_subnet : String
  data_subnet : String
  voice_subnet : String
  guest_subnet : String
  iot_subnet : String
deriving DecidableEq, Repr

/-- One `"10.{a}.{b}.0/24"` f-string of the calculator. -/
def subnet24 (a b : Nat) : String :=
  "10." ++ toString a ++ "." ++ toString b ++ ".0/24"

/-- `NetworkCalculator.calculate_site_subnets`, translated from
`src/services/network_calculator.py` lines 34-65: range-checks both ids
(raising `ValueError`, modelled as `Except.error`) and builds the five
subnet strings by f-string interpolation. -/
def calculate_site_subnets (zone_id site_id : Nat) :
    Except String IPAllocation :=
  if ¬ (1 ≤ zone_id ∧ zone_id ≤ 255) then
    .error ("Zone ID must be 1-255, got " ++ toString zone_id)
  else if ¬ (1 ≤ site_id ∧ site_id ≤ 255) then
    .error ("Site ID must be 1-255, got " ++ toString site_id)
  else
    .ok { zone_id := zone_id, site_id := site_id,
          management_subnet := subnet24 zone_id site_id,
          data_subnet := subnet24 (100 + zone_id) site_id,
          voice_subnet := subnet24 (150 + zone_id) site_id,
          guest_subnet := subnet24 (200 + zone_id) site_id,
          iot_subnet := subnet24 (220 + zone_id) site_id }

/-- One workflow-engine call, for reasoning about call sequences
(the public mutating operations of `RedisStateStore`). -/
inductive Op where
  | createDep (site_id org_id site_name : String) (now : Nat)
  | startStep (site_id : String) (step_num : Nat) (step_name : String) (now : Nat)
  | completeStep (site_id : String) (step_num : Nat) (result : Option ResultPayload) (now : Nat)
  | failStep (site_id : String) (step_num : Nat) (error : String) (now : Nat)
deriving DecidableEq, Repr

/-- Effect of one call on the backing store. -/
def applyOp (client : Option Store) : Op → Option Store
  | .createDep site org nm t => (create_deployment client site org nm t).2
  | .startStep site n nm t => (start_step client site n nm t).2
  | .completeStep site n r t => (complete_step client site n r t).2
  | .failStep site n e t => (fail_step client site n e t).2

/-- Effect of a call sequence on the backing store. -/
def runOps (client : Option Store) (ops : List Op) : Option Store :=
  ops.foldl applyOp client

/-- The empty backing store (a fresh deployment database). -/
def emptyStore : Store := ⟨[]⟩

/-- Calls `complete_step` for steps `1, 2, ..., n` in order, with result
`none` and one clock value throughout — "complete_step has been called for
all `total_steps` steps". -/
def completeAll (site : String) (t : Nat) (client : Option Store) :
    Nat → Option Store
  | 0 => client
  | n + 1 => (complete_step (completeAll site t client n) site (n + 1) none t).2

/-- The read-modify-write race of spec section 5 on the source's naive
get-then-set design: two workers both read the same initial `client` state
and each runs `complete_step` for its own step; worker 1's `set` of its
aggregate lands first, then worker 2 blindly `set`s the aggregate it
computed from its (now stale) read, clobbering worker 1's write. -/
def racyTwoCompletes (client : Option Store) (site : String) (n1 n2 : Nat)
    (r1 r2 : Option ResultPayload) (t1 t2 : Nat) : Option Store :=
  let afterFirst := (complete_step client site n1 r1 t1).2
  let staleSecondAgg := get_deployment (complete_step client site n2 r2 t2).2 site
  match afterFirst, staleSecondAgg with
  | some s1, some ag2 => some (s1.set (deployKey site) ag2)
  | _, _ => afterFirst

/-- A started (IN_PROGRESS) step, as `start_step` builds it; concrete
fixture for witness instances. -/
def demoStep (n : Nat) (nm : String) (t : Nat) : StepState :=
  { step_num := n, name := nm, status := .in_progress, started_at := some t }

/-- Concrete two-step deployment aggregate (`total_steps = 2`, steps 1 and 2
started), fixture for witness instances. -/
def demoState : DeploymentState :=
  { site_id := "s1", org_id := "o1", site_name := "Lab-1",
    status := .in_progress,
    steps := [(1, demoStep 1 "alpha" 1), (2, demoStep 2 "beta" 2)],
    current_step := some 2, total_steps := 2, created_at := 0, updated_at := 2 }

/-- Backing store holding only the fixture aggregate. -/
def demoStore : Store := ⟨[(deployKey "s1", demoState)]⟩

/-- The aggregate produced by `create_deployment "s" "o" "n"` at clock 0
(defaults: empty steps, `total_steps = 13`). -/
def freshDemo : DeploymentState :=
  { site_id := "s", org_id := "o", site_name := "n",
    status := .in_progress, created_at := 0, updated_at := 0 }

/-- Per-step shape invariant that the code actually maintains: any of
`completed_at`, `result`, `error` being set implies the step status is
terminal (`COMPLETED` or `FAILED`). -/
def stepInv (u : StepState) : Prop :=
  (u.completed_at.isSome →
    u.status = StepStatus.completed ∨ u.status = StepStatus.failed) ∧
  (u.result.isSome →
    u.status = StepStatus.completed ∨ u.status = StepStatus.failed) ∧
  (u.error.isSome →
    u.status = StepStatus.completed ∨ u.status = StepStatus.failed)

/-- `stepInv` for every step of every aggregate persisted in the store. -/
def stepsInvStore : Option Store → Prop
  | none => True
  | some s => ∀ e ∈ s.entries, ∀ q ∈ e.2.steps, stepInv q.2

/-- Aggregate invariant for in-range call sequences: distinct step keys, all
in `1..total_steps`, `total_steps` is the fixed 13 of `create_deployment`,
and the completion law relating aggregate status to the completed count. -/
def aggInv (st : DeploymentState) : Prop :=
  (st.steps.map Prod.fst).Nodup ∧
  (∀ q ∈ st.steps, 1 ≤ q.1 ∧ q.1 ≤ st.total_steps) ∧
  st.total_steps = 13 ∧
  (st.status = DeploymentStatus.completed ↔
    completedCount st.steps = st.total_steps)

/-- `aggInv` for every aggregate persisted in the store. -/
def storeInv : Option Store → Prop
  | none => True
  | some s => ∀ e ∈ s.entries, aggInv e.2

/-- An operation is in range when its step number lies in `1..13`, the
documented step range of the workflow (`start_step` docstring: "Step number
(1-13)"). -/
def opInRange : Op → Bool
  | .createDep _ _ _ _ => true
  | .startStep _ n _ _ => decide (1 ≤ n ∧ n ≤ 13)
  | .completeStep _ n _ _ => decide (1 ≤ n ∧ n ≤ 13)
  | .failStep _ n _ _ => decide (1 ≤ n ∧ n ≤ 13)

/-- Whether an operation is a `complete_step` call for the given site and
step number. -/
def opCompletesFor (site : String) (n : Nat) : Op → Bool
  | .completeStep site' n' _ _ => decide (site' = site ∧ n' = n)
  | _ => false

/-- Invariant for the idempotency-guard round trip: the persisted aggregate
for `site` (if any) holds no `COMPLETED` status at step `n`. -/
def notCompletedAt (site : String) (n : Nat) : Option Store → Prop
  | none => True
  | some s => ∀ st, s.get (deployKey site) = some st →
      ∀ v, getStep st.steps n = some v → ¬ v.status = StepStatus.completed

/-! Association-list lemmas. -/

theorem getPair_setPair_self {α β : Type} [DecidableEq α]
    (l : List (α × β)) (k : α) (v : β) :
    getPair (setPair l k v) k = some v := by
  induction l with
  | nil => simp [setPair, getPair]
  | cons p rest ih =>
    obtain ⟨m, w⟩ := p
    by_cases h : m = k
    · simp [setPair, h, getPair]
    · simp [setPair, h, getPair, ih]

theorem getPair_setPair_ne {α β : Type} [DecidableEq α]
    (l : List (α × β)) {k k' : α} (v : β) (h : k' ≠ k) :
    getPair (setPair l k v) k' = getPair l k' := by
  induction l with
  | nil => simp [setPair, getPair, Ne.symm h]
  | cons p rest ih =>
    obtain ⟨m, w⟩ := p
    by_cases hm : m = k
    · subst hm
      simp [setPair, getPair, Ne.symm h]
    · simp only [setPair, if_neg hm, getPair, ih]

theorem mem_setPair {α β : Type} [DecidableEq α]
    {l : List (α × β)} {k : α} {v : β} {q : α × β}
    (h : q ∈ setPair l k v) : q = (k, v) ∨ q ∈ l := by
  induction l with
  | nil =>
    simp only [setPair, List.mem_singleton] at h
    exact Or.inl h
  | cons p rest ih =>
    obtain ⟨m, w⟩ := p
    simp only [setPair] at h
    by_cases hm : m = k
    · rw [if_pos hm] at h
      rcases List.mem_cons.mp h with h' | h'
      · exact Or.inl h'
      · exact Or.inr (List.mem_cons_of_mem _ h')
    · rw [if_neg hm] at h
      rcases List.mem_cons.mp h with h' | h'
      · exact Or.inr (h' ▸ List.mem_cons_self _ _)
      · rcases ih h' with h'' | h''
        · exact Or.inl h''
        · exact Or.inr (List.mem_cons_of_mem _ h'')

theorem self_mem_setPair {α β : Type} [DecidableEq α]
    (l : List (α × β)) (k : α) (v : β) : (k, v) ∈ setPair l k v := by
  induction l with
  | nil => simp [setPair]
  | cons p rest ih =>
    obtain ⟨m, w⟩ := p
    simp only [setPair]
    by_cases hm : m = k
    · rw [if_pos hm]
      exact List.mem_cons_self _ _
    · rw [if_neg hm]
      exact List.mem_cons_of_mem _ ih

theorem getPair_mem {α β : Type} [DecidableEq α]
    {l : List (α × β)} {k : α} {v : β} (h : getPair l k = some v) :
    (k, v) ∈ l := by
  induction l with
  | nil => simp [getPair] at h
  | cons p rest ih =>
    obtain ⟨m, w⟩ := p
    simp only [getPair] at h
    by_cases hm : m = k
    · rw [if_pos hm] at h
      subst hm
      obtain rfl : w = v := Option.some.inj h
      exact List.mem_cons_self _ _
    · rw [if_neg hm] at h
      exact List.mem_cons_of_mem _ (ih h)

theorem getPair_eq_none_iff {α β : Type} [DecidableEq α]
    {l : List (α × β)} {k : α} :
    getPair l k = none ↔ k ∉ l.map Prod.fst := by
  induction l with
  | nil => simp [getPair]
  | cons p rest ih =>
    obtain ⟨m, w⟩ := p
    by_cases hm : m = k
    · subst hm
      simp [getPair]
    · simp [getPair, hm, ih, Ne.symm hm]

theorem keys_setPair_present {α β : Type} [DecidableEq α]
    {l : List (α × β)} {k : α} (v : β) {w : β} (h : getPair l k = some w) :
    (setPair l k v).map Prod.fst = l.map Prod.fst := by
  induction l with
  | nil => simp [getPair] at h
  | cons p rest ih =>
    obtain ⟨m, w'⟩ := p
    by_cases hm : m = k
    · subst hm
      simp [setPair]
    · simp only [getPair, if_neg hm] at h
      simp [setPair, hm, ih h]

theorem keys_setPair_absent {α β : Type} [DecidableEq α]
    {l : List (α × β)} {k : α} (v : β) (h : getPair l k = none) :
    (setPair l k v).map Prod.fst = l.map Prod.fst ++ [k] := by
  induction l with
  | nil => simp [setPair]
  | cons p rest ih =>
    obtain ⟨m, w'⟩ := p
    by_cases hm : m = k
    · subst hm
      simp [getPair] at h
    · simp only [getPair, if_neg hm] at h
      simp [setPair, hm, ih h]

theorem nodup_keys_setPair {α β : Type} [DecidableEq α]
    {l : List (α × β)} (k : α) (v : β) (h : (l.map Prod.fst).Nodup) :
    ((setPair l k v).map Prod.fst).Nodup := by
  cases hg : getPair l k with
  | some w => rw [keys_setPair_present v hg]; exact h
  | none =>
    rw [keys_setPair_absent v hg]
    have hk : k ∉ l.map Prod.fst := getPair_eq_none_iff.mp hg
    rw [List.nodup_append]
    refine ⟨h, List.nodup_singleton _, ?_⟩
    intro a ha hb
    rw [List.mem_singleton] at hb
    subst hb
    exact hk ha

theorem mem_unique_of_nodup_keys {α β : Type} [DecidableEq α]
    {l : List (α × β)} (hnd : (l.map Prod.fst).Nodup) {k : α} {v w : β}
    (h1 : (k, v) ∈ l) (h2 : (k, w) ∈ l) : v = w := by
  induction l with
  | nil => cases h1
  | cons p rest ih =>
    obtain ⟨m, u⟩ := p
    simp only [List.map_cons, List.nodup_cons] at hnd
    rcases List.mem_cons.mp h1 with e1 | m1 <;>
      rcases List.mem_cons.mp h2 with e2 | m2
    · injection e1 with a1 b1
      injection e2 with a2 b2
      rw [b1, b2]
    · exfalso
      injection e1 with a1 b1
      have : k ∈ rest.map Prod.fst := List.mem_map_of_mem Prod.fst m2
      rw [← a1] at hnd
      exact hnd.1 this
    · exfalso
      injection e2 with a2 b2
      have : k ∈ rest.map Prod.fst := List.mem_map_of_mem Prod.fst m1
      rw [← a2] at hnd
      exact hnd.1 this
    · exact ih hnd.2 m1 m2

/-! Counting lemmas for `completedCount`. -/

theorem completedCount_eq_length_filter (l : List (Nat × StepState)) :
    completedCount l =
      (l.filter (fun q => decide (q.2.status = StepStatus.completed))).length :=
  List.countP_eq_length_filter _ l

theorem completedCount_le_total (l : List (Nat × StepState)) (N : Nat)
    (hnd : (l.map Prod.fst).Nodup)
    (hrange : ∀ q ∈ l, 1 ≤ q.1 ∧ q.1 ≤ N) :
    completedCount l ≤ N := by
  classical
  have hfil : List.Sublist
      (l.filter (fun q => decide (q.2.status = StepStatus.completed))) l :=
    List.filter_sublist l
  set lf := l.filter (fun q => decide (q.2.status = StepStatus.completed)) with hlf
  have hkeys : List.Sublist (lf.map Prod.fst) (l.map Prod.fst) :=
    List.Sublist.map Prod.fst hfil
  have hndf : (lf.map Prod.fst).Nodup := List.Nodup.sublist hkeys hnd
  have hsub : (lf.map Prod.fst).toFinset ⊆ Finset.Icc 1 N := by
    intro x hx
    rw [List.mem_toFinset] at hx
    obtain ⟨q, hq, rfl⟩ := List.mem_map.mp hx
    have hql : q ∈ l := List.mem_of_mem_filter hq
    have := hrange q hql
    rw [Finset.mem_Icc]
    exact this
  calc completedCount l = lf.length := completedCount_eq_length_filter l
    _ = (lf.map Prod.fst).length := (List.length_map _ _).symm
    _ = (lf.map Prod.fst).toFinset.card := (List.toFinset_card_of_nodup hndf).symm
    _ ≤ (Finset.Icc 1 N).card := Finset.card_le_card hsub
    _ = N := by simp

theorem completedCount_lt_total (l : List (Nat × StepState)) (N : Nat)
    {k : Nat} {v : StepState}
    (hnd : (l.map Prod.fst).Nodup)
    (hrange : ∀ q ∈ l, 1 ≤ q.1 ∧ q.1 ≤ N)
    (hk : (k, v) ∈ l) (hv : ¬ v.status = StepStatus.completed) :
    completedCount l < N := by
  classical
  have hfil : List.Sublist
      (l.filter (fun q => decide (q.2.status = StepStatus.completed))) l :=
    List.filter_sublist l
  set lf := l.filter (fun q => decide (q.2.status = StepStatus.completed)) with hlf
  have hkeys : List.Sublist (lf.map Prod.fst) (l.map Prod.fst) :=
    List.Sublist.map Prod.fst hfil
  have hndf : (lf.map Prod.fst).Nodup := List.Nodup.sublist hkeys hnd
  have hkN : 1 ≤ k ∧ k ≤ N := hrange _ hk
  have hsub : (lf.map Prod.fst).toFinset ⊆ (Finset.Icc 1 N).erase k := by
    intro x hx
    rw [List.mem_toFinset] at hx
    obtain ⟨q, hq, rfl⟩ := List.mem_map.mp hx
    obtain ⟨hql, hpq⟩ := List.mem_filter.mp hq
    rw [Finset.mem_erase]
    constructor
    · intro hxk
      have hqmem : (k, q.2) ∈ l := by
        have : q = (k, q.2) := by
          rw [← hxk]
        exact this ▸ hql
      have : q.2 = v := mem_unique_of_nodup_keys hnd hqmem hk
      rw [this] at hpq
      simp only [decide_eq_true_eq] at hpq
      exact hv hpq
    · rw [Finset.mem_Icc]
      exact hrange q hql
  have hcard : (lf.map Prod.fst).toFinset.card ≤ N - 1 := by
    calc (lf.map Prod.fst).toFinset.card ≤ ((Finset.Icc 1 N).erase k).card :=
          Finset.card_le_card hsub
      _ = (Finset.Icc 1 N).card - 1 :=
          Finset.card_erase_of_mem (Finset.mem_Icc.mpr hkN)
      _ = N - 1 := by simp
  have hlen : completedCount l = (lf.map Prod.fst).toFinset.card := by
    calc completedCount l = lf.length := completedCount_eq_length_filter l
      _ = (lf.map Prod.fst).length := (List.length_map _ _).symm
      _ = (lf.map Prod.fst).toFinset.card := (List.toFinset_card_of_nodup hndf).symm
  omega

theorem le_completedCount_setPair (l : List (Nat × StepState)) (k : Nat)
    (v : StepState) (hv : v.status = StepStatus.completed) :
    completedCount l ≤ completedCount (setPair l k v) := by
  induction l with
  | nil => simp [setPair, completedCount]
  | cons p rest ih =>
    obtain ⟨m, w⟩ := p
    simp only [setPair]
    by_cases hm : m = k
    · rw [if_pos hm]
      simp only [completedCount, List.countP_cons] at *
      have h1 : (if (decide (w.status = StepStatus.completed)) = true
          then 1 else 0) ≤ 1 := by
        split <;> omega
      have h2 : (if (decide (v.status = StepStatus.completed)) = true
          then 1 else 0) = 1 := by
        simp [hv]
      omega
    · rw [if_neg hm]
      simp only [completedCount, List.countP_cons] at *
      omega

theorem card_le_completedCount (l : List (Nat × StepState)) (S : Finset Nat)
    (h : ∀ k ∈ S, ∃ u, getPair l k = some u ∧ u.status = StepStatus.completed) :
    S.card ≤ completedCount l := by
  classical
  set lf := l.filter (fun q => decide (q.2.status = StepStatus.completed)) with hlf
  have hsub : S ⊆ (lf.map Prod.fst).toFinset := by
    intro k hk
    obtain ⟨u, hu, hc⟩ := h k hk
    have hmem : (k, u) ∈ l := getPair_mem hu
    have hmf : (k, u) ∈ lf := by
      rw [hlf]
      exact List.mem_filter.mpr ⟨hmem, by simp [hc]⟩
    rw [List.mem_toFinset]
    exact List.mem_map.mpr ⟨(k, u), hmf, rfl⟩
  calc S.card ≤ (lf.map Prod.fst).toFinset.card := Finset.card_le_card hsub
    _ ≤ (lf.map Prod.fst).length := List.toFinset_card_le _
    _ = lf.length := List.length_map _ _
    _ = completedCount l := (completedCount_eq_length_filter l).symm

/-! Store access and key lemmas. -/

theorem get_set_self (s : Store) (k : String) (v : DeploymentState) :
    (s.set k v).get k = some v :=
  getPair_setPair_self s.entries k v

theorem get_set_ne (s : Store) {k k' : String} (v : DeploymentState)
    (h : k' ≠ k) : (s.set k v).get k' = s.get k' :=
  getPair_setPair_ne s.entries v h

theorem strDataAppend (a b : String) : (a ++ b).data = a.data ++ b.data := by
  cases a; cases b; rfl

theorem strEqOfData {a b : String} (h : a.data = b.data) : a = b := by
  cases a; cases b
  congr 1

theorem deployKey_inj {a b : String} (h : deployKey a = deployKey b) : a = b := by
  have hd := congrArg String.data h
  simp only [deployKey, strDataAppend] at hd
  exact strEqOfData (List.append_cancel_left hd)

/-! Unfolding lemmas for the workflow operations on their persisting paths. -/

theorem create_deployment_some (s : Store) (site org nm : String) (t : Nat) :
    create_deployment (some s) site org nm t =
      ({ site_id := site, org_id := org, site_name := nm,
         status := .in_progress, created_at := t, updated_at := t },
       some (s.set (deployKey site)
        { site_id := site, org_id := org, site_name := nm,
          status := .in_progress, created_at := t, updated_at := t })) := rfl

theorem start_step_present (s : Store) (site : String) (n : Nat) (nm : String)
    (t : Nat) {st : DeploymentState}
    (hget : s.get (deployKey site) = some st) :
    start_step (some s) site n nm t =
      ({ step_num := n, name := nm, status := .in_progress,
         started_at := some t },
       some (s.set (deployKey site)
        { st with
          steps := setPair st.steps n
            { step_num := n, name := nm, status := .in_progress,
              started_at := some t },
          current_step := some n,
          status := .in_progress,
          updated_at := t })) := by
  simp [start_step, hget]

theorem complete_step_present (s : Store) (site : String) (n : Nat)
    (r : Option ResultPayload) (t : Nat) {st : DeploymentState} {v : StepState}
    (hget : s.get (deployKey site) = some st)
    (hstep : getStep st.steps n = some v) :
    complete_step (some s) site n r t =
      ({ v with status := .completed, completed_at := some t, result := r },
       some (s.set (deployKey site)
        { st with
          steps := setPair st.steps n
            { v with status := .completed, completed_at := some t, result := r },
          updated_at := t,
          status :=
            if st.total_steps ≤ completedCount (setPair st.steps n
                { v with status := .completed, completed_at := some t,
                         result := r })
            then DeploymentStatus.completed else st.status })) := by
  simp [complete_step, hget, hstep]

theorem fail_step_present (s : Store) (site : String) (n : Nat) (e : String)
    (t : Nat) {st : DeploymentState} {v : StepState}
    (hget : s.get (deployKey site) = some st)
    (hstep : getStep st.steps n = some v) :
    fail_step (some s) site n e t =
      ({ v with status := .failed, error := some e, completed_at := some t },
       some (s.set (deployKey site)
        { st with
          steps := setPair st.steps n
            { v with status := .failed, error := some e,
                     completed_at := some t },
          status := .failed,
          updated_at := t })) := by
  simp [fail_step, hget, hstep]

theorem count_keys_setPair {α β : Type} [DecidableEq α]
    (l : List (α × β)) (k : α) (v : β)
    (h : (l.map Prod.fst).count k ≤ 1) :
    ((setPair l k v).map Prod.fst).count k = 1 := by
  cases hg : getPair l k with
  | some w =>
    rw [keys_setPair_present v hg]
    have hmem : k ∈ l.map Prod.fst :=
      List.mem_map_of_mem Prod.fst (getPair_mem hg)
    have hpos : 0 < (l.map Prod.fst).count k := List.count_pos_iff.mpr hmem
    omega
  | none =>
    rw [keys_setPair_absent v hg]
    have hzero : (l.map Prod.fst).count k = 0 :=
      List.count_eq_zero.mpr (getPair_eq_none_iff.mp hg)
    rw [List.count_append, hzero, List.count_singleton]
    simp


/-! Claim C1: the failure law. -/

/-- C1 is false as stated: `fail_step` for a step number that is not in the
steps mapping is a silent no-op (lines 157-159 of `redis_store.py`), so after
`create_deployment "s"` (no steps started) followed by
`fail_step "s" 2 "err"`, the aggregate status is still `IN_PROGRESS`, not
`FAILED`. -/
theorem C1_counterexample :
    (get_deployment (runOps (some emptyStore)
        [.createDep "s" "o" "n" 0, .failStep "s" 2 "err" 1]) "s").map
        DeploymentState.status ≠ some DeploymentStatus.failed ∧
    (get_deployment (runOps (some emptyStore)
        [.createDep "s" "o" "n" 0, .failStep "s" 2 "err" 1]) "s").map
        DeploymentState.status = some DeploymentStatus.in_progress := by
  decide

/-- C1 amended: for every deployment aggregate that exists in the backing
store and every step number present in its steps mapping, whatever the prior
status of that step and of the aggregate, `fail_step` leaves
`get_deployment` with status `FAILED`. -/
theorem C1_amended (s : Store) (site : String) (n : Nat) (e : String)
    (t : Nat) (st : DeploymentState) (v : StepState)
    (hget : get_deployment (some s) site = some st)
    (hstep : getStep st.steps n = some v) :
    (get_deployment (fail_step (some s) site n e t).2 site).map
      DeploymentState.status = some DeploymentStatus.failed := by
  rw [fail_step_present s site n e t hget hstep]
  simp [get_deployment, get_set_self]

/-- Witness for C1 amended at the concrete fixture. -/
theorem C1_witness :
    (get_deployment (fail_step (some demoStore) "s1" 1 "timeout" 5).2
      "s1").map DeploymentState.status = some DeploymentStatus.failed :=
  C1_amended demoStore "s1" 1 "timeout" 5 demoState (demoStep 1 "alpha" 1)
    (by decide) (by decide)

/-! Claim C2: terminality of COMPLETED/FAILED per step. -/

/-- C2 is false as stated: a step that reached `COMPLETED` is reset to
`IN_PROGRESS` by a subsequent `start_step` (which overwrites the step entry
unconditionally, line 101 of `redis_store.py`), so `COMPLETED` is not a
terminal status of the per-step state machine. -/
theorem C2_counterexample :
    ((get_deployment (runOps (some emptyStore)
        [.createDep "s" "o" "n" 0, .startStep "s" 1 "a" 1,
         .completeStep "s" 1 none 2]) "s").bind
        (fun st => getStep st.steps 1)).map StepState.status =
      some StepStatus.completed ∧
    ((get_deployment (runOps (some emptyStore)
        [.createDep "s" "o" "n" 0, .startStep "s" 1 "a" 1,
         .completeStep "s" 1 none 2, .startStep "s" 1 "a" 3]) "s").bind
        (fun st => getStep st.steps 1)).map StepState.status =
      some StepStatus.in_progress ∧
    StepStatus.in_progress ≠ StepStatus.completed := by
  decide

/-- C2 amended: each workflow operation on an existing step sets that step's
persisted status directly — `start_step` to `IN_PROGRESS`, `complete_step`
to `COMPLETED`, `fail_step` to `FAILED` — regardless of the step's prior
status; hence `COMPLETED` and `FAILED` are not terminal (a later
`start_step` re-enters `IN_PROGRESS`, `complete_step` leaves `FAILED`,
`fail_step` leaves `COMPLETED`). -/
theorem C2_amended (s : Store) (site : String) (n : Nat) (nm e : String)
    (r : Option ResultPayload) (t : Nat) (st : DeploymentState) (v : StepState)
    (hget : get_deployment (some s) site = some st)
    (hstep : getStep st.steps n = some v) :
    ((get_deployment (start_step (some s) site n nm t).2 site).bind
        (fun st1 => getStep st1.steps n)).map StepState.status =
      some StepStatus.in_progress ∧
    ((get_deployment (complete_step (some s) site n r t).2 site).bind
        (fun st1 => getStep st1.steps n)).map StepState.status =
      some StepStatus.completed ∧
    ((get_deployment (fail_step (some s) site n e t).2 site).bind
        (fun st1 => getStep st1.steps n)).map StepState.status =
      some StepStatus.failed := by
  refine ⟨?_, ?_, ?_⟩
  · rw [start_step_present s site n nm t hget]
    simp [get_deployment, get_set_self, getStep, getPair_setPair_self]
  · rw [complete_step_present s site n r t hget hstep]
    simp [get_deployment, get_set_self, getStep, getPair_setPair_self]
  · rw [fail_step_present s site n e t hget hstep]
    simp [get_deployment, get_set_self, getStep, getPair_setPair_self]

/-- Witness for C2 amended at the concrete fixture. -/
theorem C2_witness :
    ((get_deployment (start_step (some demoStore) "s1" 1 "x" 7).2
        "s1").bind (fun st1 => getStep st1.steps 1)).map StepState.status =
      some StepStatus.in_progress ∧
    ((get_deployment (complete_step (some demoStore) "s1" 1 none 7).2
        "s1").bind (fun st1 => getStep st1.steps 1)).map StepState.status =
      some StepStatus.completed ∧
    ((get_deployment (fail_step (some demoStore) "s1" 1 "e" 7).2
        "s1").bind (fun st1 => getStep st1.steps 1)).map StepState.status =
      some StepStatus.failed :=
  C2_amended demoStore "s1" 1 "x" "e" none 7 demoState (demoStep 1 "alpha" 1)
    (by decide) (by decide)

/-! Claim C8: idempotency of start_step. -/

/-- C8 confirmed: for an existing deployment, starting the same step twice
in immediate succession returns an `IN_PROGRESS` step both times, and the
persisted steps mapping holds exactly one entry for that step number.
(The `Nodup` hypothesis says the aggregate's step keys are distinct, which
is forced in the source by `steps` being a Python dict.) -/
theorem C8_start_step_idempotent (s : Store) (site : String) (n : Nat)
    (nm1 nm2 : String) (t1 t2 : Nat) (st : DeploymentState)
    (hget : get_deployment (some s) site = some st)
    (hnd : (st.steps.map Prod.fst).Nodup) :
    (start_step (some s) site n nm1 t1).1.status = StepStatus.in_progress ∧
    ∃ s1, (start_step (some s) site n nm1 t1).2 = some s1 ∧
      (start_step (some s1) site n nm2 t2).1.status = StepStatus.in_progress ∧
      ∃ st2, get_deployment (start_step (some s1) site n nm2 t2).2 site =
          some st2 ∧
        (getStep st2.steps n).map StepState.status =
          some StepStatus.in_progress ∧
        (st2.steps.map Prod.fst).count n = 1 := by
  have h1 := start_step_present s site n nm1 t1 hget
  rw [h1]
  refine ⟨rfl, _, rfl, ?_⟩
  have hget1 := get_set_self s (deployKey site)
    { st with
      steps := setPair st.steps n
        { step_num := n, name := nm1, status := .in_progress,
          started_at := some t1 },
      current_step := some n, status := .in_progress, updated_at := t1 }
  have h2 := start_step_present _ site n nm2 t2 hget1
  rw [h2]
  refine ⟨rfl, _, get_set_self _ _ _, ?_, ?_⟩
  · simp [getStep, getPair_setPair_self]
  · have hc0 : (st.steps.map Prod.fst).count n ≤ 1 :=
      List.nodup_iff_count_le_one.mp hnd n
    have hc1 := count_keys_setPair st.steps n
      { step_num := n, name := nm1, status := StepStatus.in_progress,
        started_at := some t1 } hc0
    exact count_keys_setPair _ n
      { step_num := n, name := nm2, status := StepStatus.in_progress,
        started_at := some t2 } (le_of_eq hc1)

/-- Witness for C8 at the concrete fixture. -/
theorem C8_witness :
    (start_step (some demoStore) "s1" 3 "x" 7).1.status =
      StepStatus.in_progress ∧
    ∃ s1, (start_step (some demoStore) "s1" 3 "x" 7).2 = some s1 ∧
      (start_step (some s1) "s1" 3 "y" 8).1.status = StepStatus.in_progress ∧
      ∃ st2, get_deployment (start_step (some s1) "s1" 3 "y" 8).2 "s1" =
          some st2 ∧
        (getStep st2.steps 3).map StepState.status =
          some StepStatus.in_progress ∧
        (st2.steps.map Prod.fst).count 3 = 1 :=
  C8_start_step_idempotent demoStore "s1" 3 "x" "y" 7 8 demoState
    (by decide) (by decide)

/-! Lemmas about `replaceAll` (Python's replace-all semantics). -/

theorem isInfix_of_tail {pat rest : List Char} (c : Char)
    (h : pat <:+: rest) : pat <:+: c :: rest := by
  obtain ⟨u, v2, huv⟩ := h
  exact ⟨c :: u, v2, by simp [List.cons_append, List.append_assoc, huv]⟩

theorem replaceAllFuel_no_occ (pat rep : List Char) :
    ∀ fuel (s : List Char), s.length ≤ fuel → ¬ (pat <:+: s) →
      replaceAllFuel pat rep fuel s = s := by
  intro fuel
  induction fuel with
  | zero =>
    intro s hs _
    have : s = [] := List.length_eq_zero.mp (Nat.le_zero.mp hs)
    subst this
    rfl
  | succ fuel ih =>
    intro s hs hocc
    cases s with
    | nil => rfl
    | cons c rest =>
      have hnp : ¬ (pat.isPrefixOf (c :: rest) = true) := by
        intro hp
        exact hocc (( List.isPrefixOf_iff_prefix.mp hp).isInfix)
      simp only [replaceAllFuel]
      rw [if_neg (fun hand => hnp hand.2)]
      congr 1
      refine ih rest ?_ (fun h => hocc (isInfix_of_tail c h))
      simpa using Nat.succ_le_succ_iff.mp hs

theorem replaceAllFuel_strip (pat rep s : List Char) (hpat : pat ≠ [])
    (hocc : ¬ (pat <:+: s)) :
    ∀ fuel, pat.length + s.length ≤ fuel + 1 →
      replaceAllFuel pat rep (fuel + 1) (pat ++ s) = rep ++ s := by
  intro fuel hfuel
  cases pat with
  | nil => exact absurd rfl hpat
  | cons c pt =>
    simp only [replaceAllFuel, List.append_eq]
    rw [if_pos ⟨List.cons_ne_nil c pt, List.isPrefixOf_iff_prefix.mpr ⟨s, rfl⟩⟩]
    rw [← List.cons_append, List.drop_left]
    congr 1
    refine replaceAllFuel_no_occ (c :: pt) rep fuel s ?_ hocc
    simp only [List.length_cons] at hfuel
    omega

theorem replaceAll_append_strip (pat rep s : List Char) (hpat : pat ≠ [])
    (hocc : ¬ (pat <:+: s)) :
    replaceAll (pat ++ s) pat rep = rep ++ s := by
  unfold replaceAll
  have h1 : 1 ≤ pat.length := List.length_pos.mpr hpat
  have hlen : (pat ++ s).length = (pat.length + s.length - 1) + 1 := by
    simp [List.length_append]
    omega
  rw [hlen]
  exact replaceAllFuel_strip pat rep s hpat hocc _ (by omega)

theorem strReplace_deployKey (site : String)
    (hocc : ¬ ("deployment:".data <:+: site.data)) :
    strReplace (deployKey site) "deployment:" "" = site := by
  apply strEqOfData
  show replaceAll (deployKey site).data "deployment:".data "".data = site.data
  have hd : (deployKey site).data = "deployment:".data ++ site.data :=
    strDataAppend _ _
  rw [hd]
  have hs := replaceAll_append_strip "deployment:".data "".data site.data
    (by decide) hocc
  simpa using hs

/-- Characterization of a persisting `complete_step` call: the step entry is
overwritten as `COMPLETED` and the aggregate status is recomputed from the
new completed count. -/
theorem complete_step_marks (s : Store) (site : String) (n : Nat)
    (r : Option ResultPayload) (t : Nat) (st : DeploymentState) (v : StepState)
    (hget : Store.get s (deployKey site) = some st)
    (hstep : getStep st.steps n = some v) :
    ∃ s' st', (complete_step (some s) site n r t).2 = some s' ∧
      Store.get s' (deployKey site) = some st' ∧
      st'.steps = setPair st.steps n
        { v with status := .completed, completed_at := some t, result := r } ∧
      st'.total_steps = st.total_steps ∧
      st'.status =
        (if st.total_steps ≤ completedCount (setPair st.steps n
            { v with status := .completed, completed_at := some t, result := r })
         then DeploymentStatus.completed else st.status) := by
  rw [complete_step_present s site n r t hget hstep]
  exact ⟨_, _, rfl, get_set_self _ _ _, rfl, rfl, rfl⟩

/-! Claim C9: determinism and disjointness of the subnet calculator. -/

/-- C9: the calculator violates its own docstring ("Generates deterministic,
non-overlapping subnets for multi-site deployments"): for the two distinct
valid inputs (zone 1, site 5) and (zone 101, site 5), the data subnet of the
first equals the management subnet of the second — both are
`10.101.5.0/24` — so the outputs are not pairwise disjoint across valid
(zone, site) pairs. -/
theorem C9_subnet_collision :
    (calculate_site_subnets 1 5).toOption.map IPAllocation.data_subnet =
      some "10.101.5.0/24" ∧
    (calculate_site_subnets 101 5).toOption.map IPAllocation.management_subnet =
      some "10.101.5.0/24" ∧
    (1, 5) ≠ (101, 5) := by
  decide

/-! Claim C10: list_deployments recovers the site ids. -/

/-- C10 is false as stated: `list_deployments` recovers site ids with
Python's `key.replace("deployment:", "")`, which removes every occurrence of
the substring, not just the key prefix.  For `site_id = "deployment:x"`, the
stored key is `deployment:deployment:x` and the recovered id is `"x"`, so
the returned sequence does not contain the original site id. -/
theorem C10_counterexample :
    list_deployments
        (create_deployment (some emptyStore) "deployment:x" "o" "n" 0).2 =
      ["x"] ∧
    "deployment:x" ∉ list_deployments
        (create_deployment (some emptyStore) "deployment:x" "o" "n" 0).2 := by
  decide

/-- C10 amended: for every site id that does not contain the substring
`"deployment:"`, after `create_deployment` with a backing store the site id
itself appears in `list_deployments` (the id recovered from the stored key
`deployment:{site_id}` equals the original id). -/
theorem C10_amended (s : Store) (site org nm : String) (t : Nat)
    (hocc : ¬ ("deployment:".data <:+: site.data)) :
    site ∈ list_deployments (create_deployment (some s) site org nm t).2 := by
  rw [create_deployment_some]
  simp only [list_deployments]
  refine List.mem_map.mpr ⟨deployKey site, ?_, strReplace_deployKey site hocc⟩
  unfold Store.keysWithPrefix Store.set
  refine List.mem_filter.mpr ⟨?_, ?_⟩
  · exact List.mem_map_of_mem Prod.fst (self_mem_setPair s.entries _ _)
  · show "deployment:".data.isPrefixOf (deployKey site).data = true
    rw [deployKey, strDataAppend]
    exact List.isPrefixOf_iff_prefix.mpr ⟨site.data, rfl⟩

/-- Witness for C10 amended at a concrete clean site id. -/
theorem C10_witness :
    "site-1" ∈ list_deployments
      (create_deployment (some emptyStore) "site-1" "o1" "Lab-1" 0).2 :=
  C10_amended emptyStore "site-1" "o1" "Lab-1" 0 (by decide)

/-! Claim C7: no lost update under concurrent complete_step calls. -/

/-- C7 is false on the source's naive get-then-set design: with a deployment
whose steps 1 and 2 are both started, two concurrent `complete_step` calls
for steps 1 and 2 that both read the same initial state (`racyTwoCompletes`)
leave a final aggregate in which worker 1's completion of step 1 is lost
(only step 2 is completed) — the update is silently clobbered. -/
theorem C7_counterexample :
    is_step_completed
        (racyTwoCompletes
          (runOps (some emptyStore)
            [.createDep "s" "o" "n" 0, .startStep "s" 1 "a" 1,
             .startStep "s" 2 "b" 2])
          "s" 1 2 none none 3 4) "s" 1 = false ∧
    is_step_completed
        (racyTwoCompletes
          (runOps (some emptyStore)
            [.createDep "s" "o" "n" 0, .startStep "s" 1 "a" 1,
             .startStep "s" 2 "b" 2])
          "s" 1 2 none none 3 4) "s" 2 = true := by
  decide

/-- C7 amended: both updates are reflected only when the two
`complete_step` calls are serialized (the second reads the state the first
wrote): for two different started steps, running `complete_step` for step
`n1` and then for step `n2` on the resulting store leaves both steps
`COMPLETED` in the persisted aggregate.  Under the concurrent interleaving
in which both calls read the same initial state, the first update is lost
(see the counterexample), since the code has no CAS or locking. -/
theorem C7_amended (s : Store) (site : String) (n1 n2 : Nat)
    (r1 r2 : Option ResultPayload) (t1 t2 : Nat) (st : DeploymentState)
    (v1 v2 : StepState)
    (hget : get_deployment (some s) site = some st)
    (h1 : getStep st.steps n1 = some v1)
    (h2 : getStep st.steps n2 = some v2)
    (hne : n1 ≠ n2) :
    ∃ st2, get_deployment
        (complete_step ((complete_step (some s) site n1 r1 t1).2) site n2 r2
          t2).2 site = some st2 ∧
      (getStep st2.steps n1).map StepState.status =
        some StepStatus.completed ∧
      (getStep st2.steps n2).map StepState.status =
        some StepStatus.completed := by
  obtain ⟨s1, st1, e1, g1, hsteps1, _, _⟩ :=
    complete_step_marks s site n1 r1 t1 st v1 hget h1
  have h2' : getStep st1.steps n2 = some v2 := by
    rw [hsteps1]
    show getPair (setPair st.steps n1 _) n2 = some v2
    rw [getPair_setPair_ne st.steps _ (Ne.symm hne)]
    exact h2
  obtain ⟨s2, st2, e2, g2, hsteps2, _, _⟩ :=
    complete_step_marks s1 site n2 r2 t2 st1 v2 g1 h2'
  rw [e1, e2]
  refine ⟨st2, g2, ?_, ?_⟩
  · rw [hsteps2, hsteps1]
    show (getPair (setPair (setPair st.steps n1 _) n2 _) n1).map
      StepState.status = some StepStatus.completed
    rw [getPair_setPair_ne _ _ hne, getPair_setPair_self]
    rfl
  · rw [hsteps2]
    show (getPair (setPair st1.steps n2 _) n2).map StepState.status =
      some StepStatus.completed
    rw [getPair_setPair_self]
    rfl

/-- Witness for C7 amended at the concrete fixture. -/
theorem C7_witness :
    ∃ st2, get_deployment
        (complete_step ((complete_step (some demoStore) "s1" 1 none 3).2)
          "s1" 2 none 4).2 "s1" = some st2 ∧
      (getStep st2.steps 1).map StepState.status =
        some StepStatus.completed ∧
      (getStep st2.steps 2).map StepState.status =
        some StepStatus.completed :=
  C7_amended demoStore "s1" 1 2 none none 3 4 demoState
    (demoStep 1 "alpha" 1) (demoStep 2 "beta" 2)
    (by decide) (by decide) (by decide) (by decide)

/-! Machinery for the completion law (claim C3). -/

/-- When every step in `1..total_steps` is present and all of them except
possibly `m` are already completed, a persisting `complete_step` for `m`
drives the aggregate status to `COMPLETED` and leaves every step in range
completed. -/
theorem complete_step_completes (s : Store) (site : String) (m : Nat)
    (r : Option ResultPayload) (t : Nat) (st : DeploymentState) (w : StepState)
    (hget : Store.get s (deployKey site) = some st)
    (hm : getStep st.steps m = some w)
    (hall : ∀ k ∈ Finset.Icc 1 st.total_steps,
      ∃ u, getStep st.steps k = some u ∧
        (k ≠ m → u.status = StepStatus.completed)) :
    ∃ s' st', (complete_step (some s) site m r t).2 = some s' ∧
      Store.get s' (deployKey site) = some st' ∧
      st'.status = DeploymentStatus.completed ∧
      st'.total_steps = st.total_steps ∧
      (∀ k ∈ Finset.Icc 1 st'.total_steps,
        ∃ u, getStep st'.steps k = some u ∧
          u.status = StepStatus.completed) := by
  obtain ⟨s', st', e, g, hsteps, htot, hstat⟩ :=
    complete_step_marks s site m r t st w hget hm
  have hall' : ∀ k ∈ Finset.Icc 1 st.total_steps,
      ∃ u, getStep st'.steps k = some u ∧ u.status = StepStatus.completed := by
    intro k hk
    by_cases hkm : k = m
    · subst hkm
      have hpair : getStep st'.steps k = some
          { w with status := StepStatus.completed, completed_at := some t,
                   result := r } := by
        rw [hsteps]
        exact getPair_setPair_self _ _ _
      exact ⟨_, hpair, rfl⟩
    · obtain ⟨u, hu, hc⟩ := hall k hk
      refine ⟨u, ?_, hc hkm⟩
      rw [hsteps]
      show getPair (setPair st.steps m _) k = some u
      rw [getPair_setPair_ne _ _ hkm]
      exact hu
  have hcount : st.total_steps ≤ completedCount st'.steps := by
    have hc := card_le_completedCount st'.steps (Finset.Icc 1 st.total_steps)
      (fun k hk => hall' k hk)
    simpa using hc
  rw [← hsteps] at hstat
  refine ⟨s', st', e, g, ?_, htot, ?_⟩
  · rw [hstat, if_pos hcount]
  · rw [htot]
    exact hall'

/-- Folding `complete_step` over steps `1..j` completes every step in that
range, keeps every present step present, and preserves `total_steps`. -/
theorem completeAll_steps (site : String) (t : Nat) (s : Store)
    (st : DeploymentState)
    (hget : Store.get s (deployKey site) = some st) :
    ∀ j, (∀ k ∈ Finset.Icc 1 j, (getStep st.steps k).isSome) →
      ∃ s' st', completeAll site t (some s) j = some s' ∧
        Store.get s' (deployKey site) = some st' ∧
        st'.total_steps = st.total_steps ∧
        (∀ k, (getStep st.steps k).isSome → (getStep st'.steps k).isSome) ∧
        (∀ k ∈ Finset.Icc 1 j, ∃ u, getStep st'.steps k = some u ∧
          u.status = StepStatus.completed) := by
  intro j
  induction j with
  | zero =>
    intro _
    exact ⟨s, st, rfl, hget, rfl, fun k hk => hk, by simp⟩
  | succ j ih =>
    intro hpres
    have hpres' : ∀ k ∈ Finset.Icc 1 j, (getStep st.steps k).isSome := by
      intro k hk
      obtain ⟨hk1, hk2⟩ := Finset.mem_Icc.mp hk
      exact hpres k (Finset.mem_Icc.mpr ⟨hk1, Nat.le_succ_of_le hk2⟩)
    obtain ⟨s', st', e, g, htot, hkeep, hdone⟩ := ih hpres'
    have hj1 : (getStep st.steps (j + 1)).isSome :=
      hpres (j + 1) (Finset.mem_Icc.mpr ⟨Nat.succ_le_succ (Nat.zero_le j),
        le_refl _⟩)
    obtain ⟨w, hw⟩ := Option.isSome_iff_exists.mp (hkeep _ hj1)
    obtain ⟨s2, st2, e2, g2, hsteps2, htot2, _⟩ :=
      complete_step_marks s' site (j + 1) none t st' w g hw
    refine ⟨s2, st2, ?_, g2, htot2.trans htot, ?_, ?_⟩
    · show (complete_step (completeAll site t (some s) j) site (j + 1)
        none t).2 = some s2
      rw [e]
      exact e2
    · intro k hk
      have hk' := hkeep k hk
      rw [hsteps2]
      by_cases hkj : k = j + 1
      · subst hkj
        show (getPair (setPair st'.steps (j + 1) _) (j + 1)).isSome
        rw [getPair_setPair_self]
        rfl
      · show (getPair (setPair st'.steps (j + 1) _) k).isSome
        rw [getPair_setPair_ne _ _ hkj]
        exact hk'
    · intro k hk
      by_cases hkj : k = j + 1
      · subst hkj
        have hpair : getStep st2.steps (j + 1) = some
            { w with status := StepStatus.completed, completed_at := some t,
                     result := none } := by
          rw [hsteps2]
          exact getPair_setPair_self _ _ _
        exact ⟨_, hpair, rfl⟩
      · obtain ⟨hk1, hk2⟩ := Finset.mem_Icc.mp hk
        have hk' : k ∈ Finset.Icc 1 j := Finset.mem_Icc.mpr ⟨hk1, by omega⟩
        obtain ⟨u, hu, hc⟩ := hdone k hk'
        refine ⟨u, ?_, hc⟩
        rw [hsteps2]
        show getPair (setPair st'.steps (j + 1) _) k = some u
        rw [getPair_setPair_ne _ _ hkj]
        exact hu

/-! Claim C3: the completion law. -/

/-- C3 confirmed: for a deployment in the backing store whose steps
`1..total_steps` have all been started (are present in the steps mapping),
calling `complete_step` for all `total_steps` steps leaves the aggregate
with status `COMPLETED`; calling `complete_step` once more for any
already-completed step `m` leaves the aggregate status unchanged
(still `COMPLETED`). -/
theorem C3_completion_law (s : Store) (site : String) (st : DeploymentState)
    (t t' : Nat) (m : Nat) (r : Option ResultPayload)
    (hget : get_deployment (some s) site = some st)
    (hpos : 0 < st.total_steps)
    (hsteps : ∀ k ∈ Finset.Icc 1 st.total_steps, (getStep st.steps k).isSome)
    (hm : m ∈ Finset.Icc 1 st.total_steps) :
    ∃ s1 st1, completeAll site t (some s) st.total_steps = some s1 ∧
      get_deployment (some s1) site = some st1 ∧
      st1.status = DeploymentStatus.completed ∧
      ∃ s2 st2, (complete_step (some s1) site m r t').2 = some s2 ∧
        get_deployment (some s2) site = some st2 ∧
        st2.status = st1.status := by
  have hn : st.total_steps - 1 + 1 = st.total_steps :=
    Nat.succ_pred_eq_of_pos hpos
  have hsteps' : ∀ k ∈ Finset.Icc 1 (st.total_steps - 1),
      (getStep st.steps k).isSome := by
    intro k hk
    obtain ⟨hk1, hk2⟩ := Finset.mem_Icc.mp hk
    exact hsteps k (Finset.mem_Icc.mpr ⟨hk1, by omega⟩)
  obtain ⟨s', st', e, g, htot, hkeep, hdone⟩ :=
    completeAll_steps site t s st hget (st.total_steps - 1) hsteps'
  have hlast : (getStep st'.steps st.total_steps).isSome :=
    hkeep _ (hsteps st.total_steps (Finset.mem_Icc.mpr ⟨hpos, le_refl _⟩))
  obtain ⟨w, hw⟩ := Option.isSome_iff_exists.mp hlast
  have hall : ∀ k ∈ Finset.Icc 1 st'.total_steps,
      ∃ u, getStep st'.steps k = some u ∧
        (k ≠ st.total_steps → u.status = StepStatus.completed) := by
    intro k hk
    rw [htot] at hk
    obtain ⟨hk1, hk2⟩ := Finset.mem_Icc.mp hk
    by_cases hkn : k = st.total_steps
    · exact ⟨w, hkn ▸ hw, fun hne => absurd hkn hne⟩
    · obtain ⟨u, hu, hc⟩ := hdone k (Finset.mem_Icc.mpr ⟨hk1, by omega⟩)
      exact ⟨u, hu, fun _ => hc⟩
  obtain ⟨s1, st1, e1, g1, hstat1, htot1, hall1⟩ :=
    complete_step_completes s' site st.total_steps none t st' w g hw hall
  have ecall : completeAll site t (some s) st.total_steps = some s1 := by
    conv_lhs => rw [← hn]
    show (complete_step (completeAll site t (some s) (st.total_steps - 1))
      site (st.total_steps - 1 + 1) none t).2 = some s1
    rw [e, hn]
    exact e1
  have hm1 : m ∈ Finset.Icc 1 st1.total_steps := by
    rw [htot1, htot]
    exact hm
  obtain ⟨u1, hu1, _⟩ := hall1 m hm1
  have hall1' : ∀ k ∈ Finset.Icc 1 st1.total_steps,
      ∃ u, getStep st1.steps k = some u ∧
        (k ≠ m → u.status = StepStatus.completed) := by
    intro k hk
    obtain ⟨u, hu, hc⟩ := hall1 k hk
    exact ⟨u, hu, fun _ => hc⟩
  obtain ⟨s2, st2, e2, g2, hstat2, _, _⟩ :=
    complete_step_completes s1 site m r t' st1 u1 g1 hu1 hall1'
  exact ⟨s1, st1, ecall, g1, hstat1, s2, st2, e2, g2, by rw [hstat2, hstat1]⟩

/-- Witness for C3 at the concrete two-step fixture. -/
theorem C3_witness :
    ∃ s1 st1, completeAll "s1" 9 (some demoStore) demoState.total_steps =
        some s1 ∧
      get_deployment (some s1) "s1" = some st1 ∧
      st1.status = DeploymentStatus.completed ∧
      ∃ s2 st2, (complete_step (some s1) "s1" 1 none 10).2 = some s2 ∧
        get_deployment (some s2) "s1" = some st2 ∧
        st2.status = st1.status :=
  C3_completion_law demoStore "s1" demoState 9 10 1 none
    (by decide) (by decide) (by decide) (by decide)

/-! Machinery for the step-shape invariant (claim C6). -/

theorem stepsInvStore_set (s : Store) (k : String) (st' : DeploymentState)
    (hc : stepsInvStore (some s))
    (hst : ∀ q ∈ st'.steps, stepInv q.2) :
    stepsInvStore (some (s.set k st')) := by
  intro e he q hq
  rcases mem_setPair he with rfl | he'
  · exact hst q hq
  · exact hc e he' q hq

theorem stepsInv_applyOp (c : Option Store) (o : Op)
    (hc : stepsInvStore c) : stepsInvStore (applyOp c o) := by
  cases c with
  | none =>
    cases o <;>
      simp [applyOp, create_deployment, start_step, complete_step, fail_step,
        stepsInvStore]
  | some s =>
    cases o with
    | createDep site org nm t =>
      show stepsInvStore (create_deployment (some s) site org nm t).2
      rw [create_deployment_some]
      refine stepsInvStore_set s _ _ hc ?_
      intro q hq
      exact absurd hq (List.not_mem_nil q)
    | startStep site n nm t =>
      show stepsInvStore (start_step (some s) site n nm t).2
      cases hget : s.get (deployKey site) with
      | none =>
        simp only [start_step, hget]
        exact hc
      | some st =>
        rw [start_step_present s site n nm t hget]
        refine stepsInvStore_set s _ _ hc ?_
        intro q hq
        rcases mem_setPair hq with rfl | hq'
        · exact ⟨fun hh => by simp at hh, fun hh => by simp at hh,
            fun hh => by simp at hh⟩
        · exact hc _ (getPair_mem hget) q hq'
    | completeStep site n r t =>
      show stepsInvStore (complete_step (some s) site n r t).2
      cases hget : s.get (deployKey site) with
      | none =>
        simp only [complete_step, hget]
        exact hc
      | some st =>
        cases hstep : getStep st.steps n with
        | none =>
          simp only [complete_step, hget, getStep] at hstep ⊢
          rw [hstep]
          exact hc
        | some v =>
          rw [complete_step_present s site n r t hget hstep]
          refine stepsInvStore_set s _ _ hc ?_
          intro q hq
          rcases mem_setPair hq with rfl | hq'
          · exact ⟨fun _ => Or.inl rfl, fun _ => Or.inl rfl,
              fun _ => Or.inl rfl⟩
          · exact hc _ (getPair_mem hget) q hq'
    | failStep site n e t =>
      show stepsInvStore (fail_step (some s) site n e t).2
      cases hget : s.get (deployKey site) with
      | none =>
        simp only [fail_step, hget]
        exact hc
      | some st =>
        cases hstep : getStep st.steps n with
        | none =>
          simp only [fail_step, hget, getStep] at hstep ⊢
          rw [hstep]
          exact hc
        | some v =>
          rw [fail_step_present s site n e t hget hstep]
          refine stepsInvStore_set s _ _ hc ?_
          intro q hq
          rcases mem_setPair hq with rfl | hq'
          · exact ⟨fun _ => Or.inr rfl, fun _ => Or.inr rfl,
              fun _ => Or.inr rfl⟩
          · exact hc _ (getPair_mem hget) q hq'

theorem stepsInv_runOps (ops : List Op) :
    ∀ c, stepsInvStore c → stepsInvStore (runOps c ops) := by
  induction ops with
  | nil => exact fun c hc => hc
  | cons o rest ih =>
    intro c hc
    exact ih (applyOp c o) (stepsInv_applyOp c o hc)

/-! Claim C6: the step-shape invariant. -/

/-- C6 is false as stated: `fail_step` does not clear a previously stored
`result` (it only sets `status`, `error`, `completed_at`, lines 161-164 of
`redis_store.py`), so after start/complete-with-result/fail of step 1 the
persisted step has `status = FAILED` with `result` still present — the
claimed "`result` implies status `COMPLETED`" is violated. -/
theorem C6_counterexample :
    ((get_deployment (runOps (some emptyStore)
        [.createDep "s" "o" "n" 0, .startStep "s" 1 "a" 1,
         .completeStep "s" 1 (some [("vlan", "10")]) 2,
         .failStep "s" 1 "boom" 3]) "s").bind
        (fun st => getStep st.steps 1)).map
        (fun u => (u.status, u.result.isSome)) =
      some (StepStatus.failed, true) ∧
    StepStatus.failed ≠ StepStatus.completed := by
  decide

/-- C6 amended: for every step of every persisted aggregate reachable by any
call sequence from an empty store, `completed_at` set implies the status is
`COMPLETED` or `FAILED`, and likewise `result` set and `error` set each
imply the status is `COMPLETED` or `FAILED` (not necessarily `COMPLETED`
resp. `FAILED` alone: `fail_step` keeps a stale `result` and `complete_step`
keeps a stale `error`). -/
theorem C6_amended (ops : List Op) :
    stepsInvStore (runOps (some emptyStore) ops) :=
  stepsInv_runOps ops (some emptyStore)
    (fun e he => absurd he (List.not_mem_nil e))

/-! Machinery for the completion-iff invariant (claim C4). -/

theorem storeInv_set (s : Store) (k : String) (st' : DeploymentState)
    (hc : storeInv (some s)) (hst : aggInv st') :
    storeInv (some (s.set k st')) := by
  intro e he
  rcases mem_setPair he with rfl | he'
  · exact hst
  · exact hc e he'

theorem storeInv_applyOp (c : Option Store) (o : Op)
    (ho : opInRange o = true) (hc : storeInv c) :
    storeInv (applyOp c o) := by
  cases c with
  | none =>
    cases o <;>
      simp [applyOp, create_deployment, start_step, complete_step, fail_step,
        storeInv]
  | some s =>
    cases o with
    | createDep site org nm t =>
      show storeInv (create_deployment (some s) site org nm t).2
      rw [create_deployment_some]
      refine storeInv_set s _ _ hc ?_
      simp [aggInv, completedCount]
    | startStep site n nm t =>
      have hn : 1 ≤ n ∧ n ≤ 13 := by simpa [opInRange] using ho
      show storeInv (start_step (some s) site n nm t).2
      cases hget : s.get (deployKey site) with
      | none =>
        simp only [start_step, hget]
        exact hc
      | some st =>
        have hinv : aggInv st := hc _ (getPair_mem hget)
        obtain ⟨hnd, hrange, h13, hiff⟩ := hinv
        rw [start_step_present s site n nm t hget]
        refine storeInv_set s _ _ hc ?_
        simp only [aggInv]
        have hrange' : ∀ q ∈ setPair st.steps n
            { step_num := n, name := nm, status := StepStatus.in_progress,
              started_at := some t },
            1 ≤ q.1 ∧ q.1 ≤ st.total_steps := by
          intro q hq
          rcases mem_setPair hq with rfl | hq'
          · exact ⟨hn.1, by omega⟩
          · exact hrange q hq'
        refine ⟨nodup_keys_setPair n _ hnd, hrange', h13, ?_, ?_⟩
        · intro h
          exact absurd h (by decide)
        · intro hcount
          exfalso
          have hlt := completedCount_lt_total _ st.total_steps
            (nodup_keys_setPair n _ hnd) hrange' (self_mem_setPair st.steps n
              { step_num := n, name := nm, status := StepStatus.in_progress,
                started_at := some t }) (by simp)
          omega
    | completeStep site n r t =>
      show storeInv (complete_step (some s) site n r t).2
      cases hget : s.get (deployKey site) with
      | none =>
        simp only [complete_step, hget]
        exact hc
      | some st =>
        cases hstep : getStep st.steps n with
        | none =>
          simp only [complete_step, hget, getStep] at hstep ⊢
          rw [hstep]
          exact hc
        | some v =>
          have hinv : aggInv st := hc _ (getPair_mem hget)
          obtain ⟨hnd, hrange, h13, hiff⟩ := hinv
          have hvmem : (n, v) ∈ st.steps := getPair_mem hstep
          rw [complete_step_present s site n r t hget hstep]
          refine storeInv_set s _ _ hc ?_
          simp only [aggInv]
          have hrange' : ∀ q ∈ setPair st.steps n
              { v with status := StepStatus.completed,
                       completed_at := some t, result := r },
              1 ≤ q.1 ∧ q.1 ≤ st.total_steps := by
            intro q hq
            rcases mem_setPair hq with rfl | hq'
            · simpa using hrange _ hvmem
            · exact hrange q hq'
          have hnd' := nodup_keys_setPair n
            { v with status := StepStatus.completed, completed_at := some t,
                     result := r } hnd
          refine ⟨hnd', hrange', h13, ?_⟩
          by_cases hcase : st.total_steps ≤ completedCount (setPair st.steps n
              { v with status := StepStatus.completed, completed_at := some t,
                       result := r })
          · rw [if_pos hcase]
            have hle := completedCount_le_total _ st.total_steps hnd' hrange'
            exact ⟨fun _ => by omega, fun _ => rfl⟩
          · rw [if_neg hcase]
            constructor
            · intro h
              exfalso
              have hold := hiff.mp h
              have hmono := le_completedCount_setPair st.steps n
                { v with status := StepStatus.completed,
                         completed_at := some t, result := r } rfl
              omega
            · intro hcount
              exfalso
              omega
    | failStep site n e t =>
      show storeInv (fail_step (some s) site n e t).2
      cases hget : s.get (deployKey site) with
      | none =>
        simp only [fail_step, hget]
        exact hc
      | some st =>
        cases hstep : getStep st.steps n with
        | none =>
          simp only [fail_step, hget, getStep] at hstep ⊢
          rw [hstep]
          exact hc
        | some v =>
          have hinv : aggInv st := hc _ (getPair_mem hget)
          obtain ⟨hnd, hrange, h13, hiff⟩ := hinv
          have hvmem : (n, v) ∈ st.steps := getPair_mem hstep
          rw [fail_step_present s site n e t hget hstep]
          refine storeInv_set s _ _ hc ?_
          simp only [aggInv]
          have hrange' : ∀ q ∈ setPair st.steps n
              { v with status := StepStatus.failed, error := some e,
                       completed_at := some t },
              1 ≤ q.1 ∧ q.1 ≤ st.total_steps := by
            intro q hq
            rcases mem_setPair hq with rfl | hq'
            · simpa using hrange _ hvmem
            · exact hrange q hq'
          have hnd' := nodup_keys_setPair n
            { v with status := StepStatus.failed, error := some e,
                     completed_at := some t } hnd
          refine ⟨hnd', hrange', h13, ?_, ?_⟩
          · intro h
            exact absurd h (by decide)
          · intro hcount
            exfalso
            have hlt := completedCount_lt_total _ st.total_steps hnd' hrange'
              (self_mem_setPair st.steps n
                { v with status := StepStatus.failed, error := some e,
                         completed_at := some t }) (by simp)
            omega

theorem storeInv_runOps (ops : List Op) :
    ∀ c, (∀ o ∈ ops, opInRange o = true) → storeInv c →
      storeInv (runOps c ops) := by
  induction ops with
  | nil => exact fun c _ hc => hc
  | cons o rest ih =>
    intro c hops hc
    exact ih (applyOp c o) (fun o' ho' => hops o' (List.mem_cons_of_mem o ho'))
      (storeInv_applyOp c o (hops o (List.mem_cons_self o rest)) hc)

/-! Claim C4: status COMPLETED iff completed count equals total_steps. -/

/-- C4 is false as stated: the workflow accepts step numbers beyond
`total_steps` (nothing validates the range), and after completing steps
1..13 and then starting and failing an extra step 14, the aggregate has 13
completed steps — equal to `total_steps` — while its status is `FAILED`,
not `COMPLETED`; the claimed "iff" fails right-to-left on this reachable
state. -/
theorem C4_counterexample :
    (get_deployment (runOps (some emptyStore)
        [.createDep "s" "o" "n" 0,
         .startStep "s" 1 "a" 0, .completeStep "s" 1 none 0,
         .startStep "s" 2 "a" 0, .completeStep "s" 2 none 0,
         .startStep "s" 3 "a" 0, .completeStep "s" 3 none 0,
         .startStep "s" 4 "a" 0, .completeStep "s" 4 none 0,
         .startStep "s" 5 "a" 0, .completeStep "s" 5 none 0,
         .startStep "s" 6 "a" 0, .completeStep "s" 6 none 0,
         .startStep "s" 7 "a" 0, .completeStep "s" 7 none 0,
         .startStep "s" 8 "a" 0, .completeStep "s" 8 none 0,
         .startStep "s" 9 "a" 0, .completeStep "s" 9 none 0,
         .startStep "s" 10 "a" 0, .completeStep "s" 10 none 0,
         .startStep "s" 11 "a" 0, .completeStep "s" 11 none 0,
         .startStep "s" 12 "a" 0, .completeStep "s" 12 none 0,
         .startStep "s" 13 "a" 0, .completeStep "s" 13 none 0,
         .startStep "s" 14 "x" 0, .failStep "s" 14 "boom" 0]) "s").map
      (fun st => (st.status, completedCount st.steps, st.total_steps)) =
      some (DeploymentStatus.failed, 13, 13) ∧
    DeploymentStatus.failed ≠ DeploymentStatus.completed := by
  decide

/-- C4 amended: restricted to call sequences whose step numbers stay in the
documented range `1..13` (= `total_steps` of every created aggregate), every
persisted aggregate reachable from an empty store satisfies: status is
`COMPLETED` iff the number of steps with status `COMPLETED` equals
`total_steps`. -/
theorem C4_amended (ops : List Op) (hops : ∀ o ∈ ops, opInRange o = true)
    (site : String) (st : DeploymentState)
    (hget : get_deployment (runOps (some emptyStore) ops) site = some st) :
    st.status = DeploymentStatus.completed ↔
      completedCount st.steps = st.total_steps := by
  have hinv := storeInv_runOps ops (some emptyStore) hops
    (fun e he => absurd he (List.not_mem_nil e))
  cases hrun : runOps (some emptyStore) ops with
  | none =>
    rw [hrun] at hget
    simp [get_deployment] at hget
  | some s' =>
    rw [hrun] at hget hinv
    have hget' : getPair s'.entries (deployKey site) = some st := hget
    exact (hinv _ (getPair_mem hget')).2.2.2

/-- Witness for C4 amended: a freshly created deployment (status
`IN_PROGRESS`, zero completed steps out of 13). -/
theorem C4_witness :
    freshDemo.status = DeploymentStatus.completed ↔
      completedCount freshDemo.steps = freshDemo.total_steps :=
  C4_amended [.createDep "s" "o" "n" 0] (by decide) "s" freshDemo (by decide)

/-! Machinery for the idempotency-guard round trip (claim C5). -/

theorem notCompleted_applyOp (site : String) (n : Nat) (c : Option Store)
    (o : Op) (ho : opCompletesFor site n o = false)
    (hc : notCompletedAt site n c) :
    notCompletedAt site n (applyOp c o) := by
  cases c with
  | none =>
    cases o <;>
      simp [applyOp, create_deployment, start_step, complete_step, fail_step,
        notCompletedAt]
  | some s =>
    cases o with
    | createDep site' org nm t =>
      show notCompletedAt site n (create_deployment (some s) site' org nm t).2
      rw [create_deployment_some]
      intro st hst v hv
      by_cases hk : deployKey site = deployKey site'
      · rw [hk, get_set_self] at hst
        obtain rfl := Option.some.inj hst
        simp [getStep, getPair] at hv
      · rw [get_set_ne _ _ hk] at hst
        exact hc st hst v hv
    | startStep site' m nm t =>
      show notCompletedAt site n (start_step (some s) site' m nm t).2
      cases hget : s.get (deployKey site') with
      | none =>
        simp only [start_step, hget]
        exact hc
      | some st0 =>
        rw [start_step_present s site' m nm t hget]
        intro st hst v hv
        by_cases hk : deployKey site = deployKey site'
        · rw [hk, get_set_self] at hst
          obtain rfl := Option.some.inj hst
          simp only [getStep] at hv
          by_cases hmn : m = n
          · subst hmn
            rw [getPair_setPair_self] at hv
            obtain rfl := Option.some.inj hv
            simp
          · rw [getPair_setPair_ne _ _ (Ne.symm hmn)] at hv
            refine hc st0 ?_ v hv
            rw [hk]
            exact hget
        · rw [get_set_ne _ _ hk] at hst
          exact hc st hst v hv
    | completeStep site' m r t =>
      have hno : ¬ (site' = site ∧ m = n) := by
        simpa [opCompletesFor] using ho
      show notCompletedAt site n (complete_step (some s) site' m r t).2
      cases hget : s.get (deployKey site') with
      | none =>
        simp only [complete_step, hget]
        exact hc
      | some st0 =>
        cases hstep : getStep st0.steps m with
        | none =>
          simp only [complete_step, hget, getStep] at hstep ⊢
          rw [hstep]
          exact hc
        | some w =>
          rw [complete_step_present s site' m r t hget hstep]
          intro st hst v hv
          by_cases hk : deployKey site = deployKey site'
          · have hsite : site = site' := deployKey_inj hk
            have hmn : ¬ m = n := fun hm => hno ⟨hsite.symm, hm⟩
            rw [hk, get_set_self] at hst
            obtain rfl := Option.some.inj hst
            simp only [getStep] at hv
            rw [getPair_setPair_ne _ _ (Ne.symm hmn)] at hv
            refine hc st0 ?_ v hv
            rw [hk]
            exact hget
          · rw [get_set_ne _ _ hk] at hst
            exact hc st hst v hv
    | failStep site' m e t =>
      show notCompletedAt site n (fail_step (some s) site' m e t).2
      cases hget : s.get (deployKey site') with
      | none =>
        simp only [fail_step, hget]
        exact hc
      | some st0 =>
        cases hstep : getStep st0.steps m with
        | none =>
          simp only [fail_step, hget, getStep] at hstep ⊢
          rw [hstep]
          exact hc
        | some w =>
          rw [fail_step_present s site' m e t hget hstep]
          intro st hst v hv
          by_cases hk : deployKey site = deployKey site'
          · rw [hk, get_set_self] at hst
            obtain rfl := Option.some.inj hst
            simp only [getStep] at hv
            by_cases hmn : m = n
            · subst hmn
              rw [getPair_setPair_self] at hv
              obtain rfl := Option.some.inj hv
              simp
            · rw [getPair_setPair_ne _ _ (Ne.symm hmn)] at hv
              refine hc st0 ?_ v hv
              rw [hk]
              exact hget
          · rw [get_set_ne _ _ hk] at hst
            exact hc st hst v hv

theorem notCompleted_runOps (site : String) (n : Nat) (ops : List Op) :
    ∀ c, (∀ o ∈ ops, opCompletesFor site n o = false) →
      notCompletedAt site n c → notCompletedAt site n (runOps c ops) := by
  induction ops with
  | nil => exact fun c _ hc => hc
  | cons o rest ih =>
    intro c hops hc
    exact ih (applyOp c o)
      (fun o' ho' => hops o' (List.mem_cons_of_mem o ho'))
      (notCompleted_applyOp site n c o (hops o (List.mem_cons_self o rest)) hc)

/-! Claim C5: the idempotency-guard round trip. -/

/-- C5 is false as stated: when the deployment is absent (or the step was
never started), `complete_step` is a silent unpersisted no-op (lines 123-125
of `redis_store.py`), so `is_step_completed` is still `false` immediately
after `complete_step` has been called. -/
theorem C5_counterexample :
    is_step_completed (complete_step (some emptyStore) "s" 1 none 0).2
      "s" 1 = false ∧ (false : Bool) ≠ true := by
  decide

/-- C5 amended: `is_step_completed site n` is `false` after any call
sequence from an empty store that contains no `complete_step` for
`(site, n)`; and it is `true` immediately after `complete_step site n` when
the deployment exists and step `n` is present in its steps mapping. -/
theorem C5_amended (site : String) (n : Nat) (ops : List Op)
    (hops : ∀ o ∈ ops, opCompletesFor site n o = false)
    (s : Store) (st : DeploymentState) (v : StepState)
    (hget : get_deployment (some s) site = some st)
    (hstep : getStep st.steps n = some v)
    (r : Option ResultPayload) (t : Nat) :
    is_step_completed (runOps (some emptyStore) ops) site n = false ∧
    is_step_completed (complete_step (some s) site n r t).2 site n = true := by
  constructor
  · have hinv := notCompleted_runOps site n ops (some emptyStore) hops
      (by intro st0 hst0 v0 hv0; simp [Store.get, emptyStore, getPair] at hst0)
    cases hrun : runOps (some emptyStore) ops with
    | none => rfl
    | some s' =>
      rw [hrun] at hinv
      cases hg : s'.get (deployKey site) with
      | none => simp [is_step_completed, get_deployment, hg]
      | some st' =>
        cases hgs : getStep st'.steps n with
        | none => simp [is_step_completed, get_deployment, hg, hgs]
        | some v' =>
          have hnc := hinv st' hg v' hgs
          simp [is_step_completed, get_deployment, hg, hgs, hnc]
  · have hget' : Store.get s (deployKey site) = some st := hget
    obtain ⟨s', st', e, g, hsteps, _, _⟩ :=
      complete_step_marks s site n r t st v hget' hstep
    rw [e]
    simp only [is_step_completed, get_deployment, g, hsteps, getStep]
    rw [getPair_setPair_self]
    simp

/-- Witness for C5 at the concrete fixture. -/
theorem C5_witness :
    is_step_completed (runOps (some emptyStore)
      [.createDep "s1" "o" "n" 0, .startStep "s1" 1 "a" 1]) "s1" 1 = false ∧
    is_step_completed (complete_step (some demoStore) "s1" 1 none 5).2
      "s1" 1 = true :=
  C5_amended "s1" 1 [.createDep "s1" "o" "n" 0, .startStep "s1" 1 "a" 1]
    (by decide) demoStore demoState (demoStep 1 "alpha" 1)
    (by decide) (by decide) none 5
